import Mathlib

set_option allowUnsafeReducibility true in
attribute [semireducible] Rat.add Rat.mul Rat.sub Rat.inv Rat.div

/-!
Shallow embedding of the TITAN VN100 adaptive alpha scanner core
(`core/titan_math.py`, `strategies/alpha_scanner.py`, the ranking sort of
`main.py`).  Prices and indicator values are rationals; bars carry the
High/Low/Close fields the core reads.  Fallible operations return
`Except TitanError`; Python exceptions raised by invalid smoothing lengths
are modelled by the `invalidParameter` error value.
-/

namespace Titan

/-- One OHLC price bar as consumed by the core (`High`, `Low`, `Close`). -/
structure Bar where
  high : ℚ
  low : ℚ
  close : ℚ
deriving DecidableEq, Repr

/-- Error taxonomy for fallible core calls: a non-positive smoothing length
makes `series.ewm(alpha=1.0/length)` raise in Python
(`ZeroDivisionError` for 0, `ValueError` for negative alpha). -/
inductive TitanError where
  | invalidParameter
deriving DecidableEq, Repr

/-- Recursive kernel of Wilder's RMA: given the previous output value,
emit `prev + (x - prev) / length` for each input `x`
(this is `ewm(alpha=1/length, adjust=False).mean()` unrolled). -/
def rmaGo (length : ℚ) (prev : ℚ) : List ℚ → List ℚ
  | [] => []
  | x :: xs =>
    (prev + (x - prev) / length) :: rmaGo length (prev + (x - prev) / length) xs

/-- Wilder smoothing on a whole series: first output equals first input. -/
def rmaCore (length : ℚ) : List ℚ → List ℚ
  | [] => []
  | x :: xs => x :: rmaGo length x xs

/-- `TitanMath.rma`: Wilder's Relative Moving Average.  For a non-positive
length the underlying `ewm` call raises, modelled as `invalidParameter`. -/
def rma (series : List ℚ) (length : ℤ) : Except TitanError (List ℚ) :=
  if length ≤ 0 then .error .invalidParameter
  else .ok (rmaCore (length : ℚ) series)

/-- True Range for every bar after the first, threading the previous close:
`max (high - low) (max |high - prevClose| |low - prevClose|)`. -/
def trGo (prevClose : ℚ) : List Bar → List ℚ
  | [] => []
  | b :: bs =>
    max (b.high - b.low) (max |b.high - prevClose| |b.low - prevClose|) :: trGo b.close bs

/-- True Range series; the first bar has no previous close (`shift(1)` is
NaN there and `max(axis=1)` skips NaN), leaving `high - low`. -/
def trList : List Bar → List ℚ
  | [] => []
  | b :: bs => (b.high - b.low) :: trGo b.close bs

/-- Directional Movement pairs `(+DM, -DM)` for every bar after the first,
threading the previous bar. -/
def dmGo : Bar → List Bar → List (ℚ × ℚ)
  | _, [] => []
  | p, b :: bs =>
    let up := b.high - p.high
    let down := p.low - b.low
    ((if up > down ∧ up > 0 then up else 0),
     (if down > up ∧ down > 0 then down else 0)) :: dmGo b bs

/-- Directional Movement series; the first bar's moves are NaN in the
source, the `np.where` conditions are false there, so both DMs are 0. -/
def dmList : List Bar → List (ℚ × ℚ)
  | [] => []
  | b :: bs => (0, 0) :: dmGo b bs

/-- One DI value: `(num / den) * 100` with a smoothed True Range of 0
mapped to 0 (`replace(0, np.nan)` followed by `fillna(0)`). -/
def diDiv (num den : ℚ) : ℚ :=
  if den = 0 then 0 else num / den * 100

/-- `TitanMath.calculate_di`: smoothed `(plusDI, minusDI)` series. -/
def calculate_di (bars : List Bar) (length : ℤ) :
    Except TitanError (List ℚ × List ℚ) :=
  match rma (trList bars) length,
        rma ((dmList bars).map Prod.fst) length,
        rma ((dmList bars).map Prod.snd) length with
  | .ok trS, .ok plusS, .ok minusS =>
    .ok (List.zipWith diDiv plusS trS, List.zipWith diDiv minusS trS)
  | .error e, _, _ => .error e
  | _, .error e, _ => .error e
  | _, _, .error e => .error e

/-- Sequential kernel of the impulse counter, carrying the previous DI
values and the previous counts exactly as the Python loop does. -/
def trendGo (prevP prevM pc nc : ℚ) : List (ℚ × ℚ) → List (ℚ × ℚ)
  | [] => []
  | (p, m) :: rest =>
    if p > prevP ∧ p > m then (pc + 1, 0) :: trendGo p m (pc + 1) 0 rest
    else if m > prevM ∧ m > p then (0, nc + 1) :: trendGo p m 0 (nc + 1) rest
    else (pc, nc) :: trendGo p m pc nc rest

/-- `TitanMath.calculate_trend_count`: index 0 holds `(0, 0)` (from
`np.zeros`), later indices follow the stateful transition rule. -/
def calculate_trend_count (plus minus : List ℚ) : List (ℚ × ℚ) :=
  match plus, minus with
  | p :: ps, m :: ms => (0, 0) :: trendGo p m 0 0 (ps.zip ms)
  | _, _ => []

/-- Ignition flags aligned with indices `1..n-1`: value is 1 now and was 0
on the previous bar (`(c == 1) & (c.shift(1) == 0)`). -/
def ignitions (xs : List ℚ) : List Bool :=
  List.zipWith (fun prev cur => decide (cur = 1 ∧ prev = 0)) xs xs.tail

/-- State of the trade-simulation loop.  `entries` is ghost bookkeeping
(number of entries taken) used only to state theorems; the Python loop
keeps `in_position`, `entry_price`, `total_return`, `trades`. -/
structure SimState where
  in_position : Bool
  entry_price : ℚ
  total_return : ℚ
  trades : ℕ
  entries : ℕ
deriving DecidableEq, Repr

/-- Initial simulation state: flat, unit return multiplier, no trades. -/
def simInit : SimState :=
  { in_position := false, entry_price := 0, total_return := 1, trades := 0, entries := 0 }

/-- One iteration of the simulation loop at price `x.1` with entry signal
`x.2.1` and exit signal `x.2.2` (the `elif` makes the exit check
unreachable on a bar whose entry branch fired). -/
def simStep (s : SimState) (x : ℚ × Bool × Bool) : SimState :=
  if ¬ s.in_position ∧ x.2.1 then
    { s with in_position := true, entry_price := x.1, entries := s.entries + 1 }
  else if s.in_position ∧ x.2.2 then
    { s with in_position := false,
             total_return := s.total_return * (1 + (x.1 - s.entry_price) / s.entry_price),
             trades := s.trades + 1 }
  else s

/-- The simulation loop over bars `1..n-1`: closes after the first bar,
zipped with the ignition flags of both count series. -/
def runSim (closes : List ℚ) (pos neg : List ℚ) : SimState :=
  (closes.tail.zip ((ignitions pos).zip (ignitions neg))).foldl simStep simInit

/-- Force-close of a still-open position at the last close price; the
trade is counted as completed. -/
def closeOut (lastClose : ℚ) (s : SimState) : SimState :=
  if s.in_position then
    { s with total_return := s.total_return * (1 + (lastClose - s.entry_price) / s.entry_price),
             trades := s.trades + 1 }
  else s

/-- Result record of `TitanMath.check_alpha_validity`; `reason` is the
optional `'reason'` key of the returned dict. -/
structure AlphaResult where
  is_valid : Bool
  alpha : ℚ
  algo_ret : ℚ
  buy_hold : ℚ
  total_trades : ℕ
  reason : Option String
deriving DecidableEq, Repr

/-- The defined insufficient-data value returned for fewer than 50 bars. -/
def insufficientData : AlphaResult :=
  { is_valid := false, alpha := 0, algo_ret := 0, buy_hold := 0,
    total_trades := 0, reason := some "Insufficient data" }

/-- `TitanMath.check_alpha_validity`: backtest of the impulse strategy at
one DI length, with the dual-guardrail validation. -/
def check_alpha_validity (bars : List Bar) (di_length : ℤ) :
    Except TitanError AlphaResult :=
  if bars.length < 50 then .ok insufficientData
  else
    match calculate_di bars di_length with
    | .error e => .error e
    | .ok (plus, minus) =>
      let counts := calculate_trend_count plus minus
      let pos := counts.map Prod.fst
      let neg := counts.map Prod.snd
      let closes := bars.map Bar.close
      let lastClose := closes.getLast?.getD 0
      let firstClose := closes.headD 0
      let final := closeOut lastClose (runSim closes pos neg)
      let algoRet := (final.total_return - 1) * 100
      let buyHold := (lastClose - firstClose) / firstClose * 100
      let alpha := algoRet - buyHold
      .ok { is_valid := decide (algoRet > 0) && decide (algoRet > buyHold),
            alpha := alpha, algo_ret := algoRet, buy_hold := buyHold,
            total_trades := final.trades, reason := none }

/-- The extended optimization range `range(DI_LENGTH_MIN, DI_LENGTH_MAX + 1)`,
i.e. the integers 1 to 40 inclusive, in ascending order. -/
def diLengths : List ℤ :=
  (List.range 40).map (fun k => (k : ℤ) + 1)

/-- The `best_alpha / best_length / best_result` triple threaded through
the grid search of `AlphaScanner.analyze_symbol`. -/
structure BestState where
  best_alpha : ℚ
  best_length : ℤ
  best_result : AlphaResult
deriving DecidableEq, Repr

/-- One step of the grid search: a failing evaluation is skipped
(`except: continue`); a successful one replaces the incumbent only when
its alpha is strictly greater (`best_alpha` starts at `-inf`, so the
first success always installs itself). -/
def optStep (bars : List Bar) (acc : Option BestState) (length : ℤ) :
    Option BestState :=
  match check_alpha_validity bars length with
  | .error _ => acc
  | .ok stats =>
    match acc with
    | none => some ⟨stats.alpha, length, stats⟩
    | some b =>
      if stats.alpha > b.best_alpha then some ⟨stats.alpha, length, stats⟩
      else some b

/-- The parameter sweep of `analyze_symbol`: ascending scan of lengths
1..40, keeping the strictly-best alpha. -/
def optimizeSweep (bars : List Bar) : Option BestState :=
  diLengths.foldl (optStep bars) none

/-- The trend-strength bucket of `analyze_symbol`: `"Strong"` above 20,
`"Mod"` above 10, else `"Weak"`. -/
def trendStrength (v : ℚ) : String :=
  if v > 20 then "Strong" else if v > 10 then "Mod" else "Weak"

/-- The per-symbol record built by `AlphaScanner.analyze_symbol`
(the `symbol` and `scan_range` strings are omitted: they do not depend on
the price data). -/
structure AnalysisResult where
  close_price : ℚ
  is_valid : Bool
  alpha : ℚ
  algo_ret : ℚ
  buy_hold : ℚ
  total_trades : ℕ
  is_buy_signal : Bool
  trend_strength : String
  plus_di : ℚ
  minus_di : ℚ
  optimal_length : ℤ
deriving DecidableEq, Repr

/-- `AlphaScanner.analyze_symbol` on an already-fetched series: `none` for
fewer than 50 bars or when the sweep produced no candidate; otherwise the
winning configuration plus latest-bar signal state. -/
def analyze_symbol (bars : List Bar) : Option AnalysisResult :=
  if bars.length < 50 then none
  else
    match optimizeSweep bars with
    | none => none
    | some best =>
      match calculate_di bars best.best_length with
      | .error _ => none
      | .ok (plus_di, minus_di) =>
        let counts := calculate_trend_count plus_di minus_di
        let pos := counts.map Prod.fst
        let current_pos := (pos.getLast?).getD 0
        let previous_pos :=
          if 1 < pos.length then ((pos.dropLast.getLast?).getD 0) else 0
        let strength_val := |((plus_di.getLast?).getD 0) - ((minus_di.getLast?).getD 0)|
        some { close_price := ((bars.map Bar.close).getLast?).getD 0
               is_valid := best.best_result.is_valid
               alpha := best.best_result.alpha
               algo_ret := best.best_result.algo_ret
               buy_hold := best.best_result.buy_hold
               total_trades := best.best_result.total_trades
               is_buy_signal := decide (current_pos = 1) && decide (previous_pos = 0)
               trend_strength := trendStrength strength_val
               plus_di := (plus_di.getLast?).getD 0
               minus_di := (minus_di.getLast?).getD 0
               optimal_length := best.best_length }

/-- One row of the stability profile built by
`AlphaScanner.inspect_ticker_stability`. -/
structure StabilityEntry where
  length : ℤ
  alpha : ℚ
  is_valid : Bool
  algo_ret : ℚ
  buy_hold : ℚ
  trades : ℕ
deriving DecidableEq, Repr

/-- Comparison used to model `results.sort(key=lambda x: x['length'])`. -/
def stabilityLe (a b : StabilityEntry) : Bool :=
  decide (a.length ≤ b.length)

/-- The loop body of `inspect_ticker_stability`: one evaluation appended
as a row, a failing evaluation skipped (`except: continue`). -/
def stabilityRow (bars : List Bar) (length : ℤ) : Option StabilityEntry :=
  match check_alpha_validity bars length with
  | .error _ => none
  | .ok s =>
    some { length := length, alpha := s.alpha, is_valid := s.is_valid,
           algo_ret := s.algo_ret, buy_hold := s.buy_hold,
           trades := s.total_trades }

/-- `AlphaScanner.inspect_ticker_stability` on an already-fetched series:
empty for fewer than 50 bars; otherwise one entry per length whose
evaluation succeeded, sorted by length ascending. -/
def inspect_ticker_stability (bars : List Bar) : List StabilityEntry :=
  if bars.length < 50 then []
  else (diLengths.filterMap (stabilityRow bars)).mergeSort stabilityLe

/-- `sort_key` of `main.run_scan`: Python sorts ascending on the tuple
`(-int(is_buy_signal and is_valid), -int(is_valid), -alpha)`. -/
def sort_key (r : AnalysisResult) : ℤ × ℤ × ℚ :=
  (-(if r.is_buy_signal && r.is_valid then (1 : ℤ) else 0),
   -(if r.is_valid then (1 : ℤ) else 0),
   -r.alpha)

/-- Lexicographic comparison of sort keys (Python tuple order). -/
def keyLe (x y : ℤ × ℤ × ℚ) : Bool :=
  decide (x.1 < y.1 ∨ (x.1 = y.1 ∧
    (x.2.1 < y.2.1 ∨ (x.2.1 = y.2.1 ∧ x.2.2 ≤ y.2.2))))

/-- The ranking sort of `main.run_scan`: stable sort by `sort_key`. -/
def rankResults (rs : List AnalysisResult) : List AnalysisResult :=
  rs.mergeSort (fun a b => keyLe (sort_key a) (sort_key b))

/-! ### Helper lemmas about the smoothing kernel -/

theorem rmaGo_length (l prev : ℚ) (xs : List ℚ) :
    (rmaGo l prev xs).length = xs.length := by
  induction xs generalizing prev with
  | nil => rfl
  | cons x xs ih => simp [rmaGo, ih]

theorem rmaCore_length (l : ℚ) (xs : List ℚ) :
    (rmaCore l xs).length = xs.length := by
  cases xs with
  | nil => rfl
  | cons x xs => simp [rmaCore, rmaGo_length]

theorem rmaCore_headD (l : ℚ) (xs : List ℚ) :
    (rmaCore l xs).headD 0 = xs.headD 0 := by
  cases xs <;> rfl

theorem rmaGo_getD_succ (l : ℚ) (xs : List ℚ) :
    ∀ (prev : ℚ) (i : ℕ), i + 1 < xs.length →
      (rmaGo l prev xs).getD (i + 1) 0 =
        (rmaGo l prev xs).getD i 0 +
          (xs.getD (i + 1) 0 - (rmaGo l prev xs).getD i 0) / l := by
  induction xs with
  | nil => intro prev i h; simp at h
  | cons x xs ih =>
    intro prev i h
    cases xs with
    | nil => simp at h
    | cons z zs =>
      cases i with
      | zero => simp [rmaGo]
      | succ j =>
        have hj : j + 1 < (z :: zs).length := by
          simpa using Nat.lt_of_succ_lt_succ h
        simpa [rmaGo] using ih (prev + (x - prev) / l) j hj

theorem rmaCore_getD_succ (l : ℚ) (xs : List ℚ) (i : ℕ) (h : i + 1 < xs.length) :
    (rmaCore l xs).getD (i + 1) 0 =
      (rmaCore l xs).getD i 0 +
        (xs.getD (i + 1) 0 - (rmaCore l xs).getD i 0) / l := by
  cases xs with
  | nil => simp at h
  | cons x xs =>
    cases xs with
    | nil => simp at h
    | cons z zs =>
      cases i with
      | zero => simp [rmaCore, rmaGo]
      | succ j =>
        have hj : j + 1 < (z :: zs).length := by
          simpa using Nat.lt_of_succ_lt_succ h
        simpa [rmaCore] using rmaGo_getD_succ l (z :: zs) x j hj

/-! ### Helper lemmas for the impulse counter -/

/-- Mutual exclusivity of one count pair. -/
def Excl (x : ℚ × ℚ) : Prop :=
  (0 < x.1 → x.2 = 0) ∧ (0 < x.2 → x.1 = 0)

theorem excl_zero : Excl (0, 0) :=
  ⟨fun h => absurd h (lt_irrefl 0), fun h => absurd h (lt_irrefl 0)⟩

theorem trendGo_excl : ∀ (rest : List (ℚ × ℚ)) (prevP prevM pc nc : ℚ),
    Excl (pc, nc) → ∀ y ∈ trendGo prevP prevM pc nc rest, Excl y := by
  intro rest
  induction rest with
  | nil => intro _ _ _ _ _ y hy; simp [trendGo] at hy
  | cons pm rest ih =>
    intro prevP prevM pc nc h y hy
    obtain ⟨p, m⟩ := pm
    by_cases h1 : p > prevP ∧ p > m
    · rw [trendGo, if_pos h1] at hy
      rcases List.mem_cons.mp hy with rfl | hy'
      · exact ⟨fun _ => rfl, fun h0 => absurd h0 (lt_irrefl 0)⟩
      · exact ih p m _ _ ⟨fun _ => rfl, fun h0 => absurd h0 (lt_irrefl 0)⟩ y hy'
    · by_cases h2 : m > prevM ∧ m > p
      · rw [trendGo, if_neg h1, if_pos h2] at hy
        rcases List.mem_cons.mp hy with rfl | hy'
        · exact ⟨fun h0 => absurd h0 (lt_irrefl 0), fun _ => rfl⟩
        · exact ih p m _ _ ⟨fun h0 => absurd h0 (lt_irrefl 0), fun _ => rfl⟩ y hy'
      · rw [trendGo, if_neg h1, if_neg h2] at hy
        rcases List.mem_cons.mp hy with rfl | hy'
        · exact h
        · exact ih p m _ _ h y hy'

theorem excl_getD (l : List (ℚ × ℚ)) (i : ℕ) (d : ℚ × ℚ)
    (hl : ∀ y ∈ l, Excl y) (hd : Excl d) : Excl (l.getD i d) := by
  by_cases h : i < l.length
  · rw [List.getD_eq_getElem l d h]
    exact hl _ (List.getElem_mem h)
  · rw [List.getD_eq_default l d (Nat.le_of_not_lt h)]
    exact hd

theorem trend_count_excl (plus minus : List ℚ) :
    ∀ y ∈ calculate_trend_count plus minus, Excl y := by
  intro y hy
  cases plus with
  | nil => simp [calculate_trend_count] at hy
  | cons p ps =>
    cases minus with
    | nil => simp [calculate_trend_count] at hy
    | cons m ms =>
      simp only [calculate_trend_count] at hy
      rcases List.mem_cons.mp hy with rfl | hy'
      · exact excl_zero
      · exact trendGo_excl _ _ _ _ _ excl_zero y hy'

/-! ### Claim theorems: impulse state machine -/

/-- C2: at every index of the impulse-count output, a positive
`positiveCount` forces `negativeCount = 0` and vice versa; the invariant
is preserved through every transition (including the hold branch), since
every pair the state machine ever emits satisfies it. -/
theorem trend_count_mutual_exclusion (plus minus : List ℚ) (i : ℕ) :
    (0 < ((calculate_trend_count plus minus).getD i (0, 0)).1 →
      ((calculate_trend_count plus minus).getD i (0, 0)).2 = 0) ∧
    (0 < ((calculate_trend_count plus minus).getD i (0, 0)).2 →
      ((calculate_trend_count plus minus).getD i (0, 0)).1 = 0) :=
  excl_getD _ i (0, 0) (trend_count_excl plus minus) excl_zero

/-- C2 witness: on `plus = [0, 1]`, `minus = [0, 0]` the bar-1 pair is
`(1, 0)`: its positive count is positive and its negative count is 0. -/
theorem trend_count_mutual_exclusion_witness :
    0 < ((calculate_trend_count [0, 1] [0, 0]).getD 1 (0, 0)).1 ∧
      ((calculate_trend_count [0, 1] [0, 0]).getD 1 (0, 0)).2 = 0 :=
  ⟨by decide, (trend_count_mutual_exclusion [0, 1] [0, 0] 1).1 (by decide)⟩

/-- Per-bar transition bound: each count is 0, held, or incremented by 1. -/
def countStep (x y : ℚ × ℚ) : Prop :=
  (y.1 = 0 ∨ y.1 = x.1 ∨ y.1 = x.1 + 1) ∧ (y.2 = 0 ∨ y.2 = x.2 ∨ y.2 = x.2 + 1)

theorem trendGo_chain : ∀ (rest : List (ℚ × ℚ)) (prevP prevM pc nc : ℚ),
    List.Chain countStep (pc, nc) (trendGo prevP prevM pc nc rest) := by
  intro rest
  induction rest with
  | nil => intro _ _ _ _; exact List.Chain.nil
  | cons pm rest ih =>
    intro prevP prevM pc nc
    obtain ⟨p, m⟩ := pm
    by_cases h1 : p > prevP ∧ p > m
    · rw [trendGo, if_pos h1]
      exact List.Chain.cons ⟨Or.inr (Or.inr rfl), Or.inl rfl⟩ (ih p m _ _)
    · by_cases h2 : m > prevM ∧ m > p
      · rw [trendGo, if_neg h1, if_pos h2]
        exact List.Chain.cons ⟨Or.inl rfl, Or.inr (Or.inr rfl)⟩ (ih p m _ _)
      · rw [trendGo, if_neg h1, if_neg h2]
        exact List.Chain.cons ⟨Or.inr (Or.inl rfl), Or.inr (Or.inl rfl)⟩ (ih p m _ _)

theorem trendGo_nat : ∀ (rest : List (ℚ × ℚ)) (prevP prevM : ℚ) (a b : ℕ),
    ∀ y ∈ trendGo prevP prevM (a : ℚ) (b : ℚ) rest,
      ∃ n m : ℕ, y = ((n : ℚ), (m : ℚ)) := by
  intro rest
  induction rest with
  | nil => intro _ _ _ _ y hy; simp [trendGo] at hy
  | cons pm rest ih =>
    intro prevP prevM a b y hy
    obtain ⟨p, m⟩ := pm
    have hcast1 : (a : ℚ) + 1 = ((a + 1 : ℕ) : ℚ) := by push_cast; ring
    have hcast2 : (b : ℚ) + 1 = ((b + 1 : ℕ) : ℚ) := by push_cast; ring
    have hzero : (0 : ℚ) = ((0 : ℕ) : ℚ) := by norm_num
    by_cases h1 : p > prevP ∧ p > m
    · rw [trendGo, if_pos h1] at hy
      rcases List.mem_cons.mp hy with rfl | hy'
      · exact ⟨a + 1, 0, by push_cast; ring_nf⟩
      · rw [hcast1, hzero] at hy'
        exact ih p m (a + 1) 0 y hy'
    · by_cases h2 : m > prevM ∧ m > p
      · rw [trendGo, if_neg h1, if_pos h2] at hy
        rcases List.mem_cons.mp hy with rfl | hy'
        · exact ⟨0, b + 1, by push_cast; ring_nf⟩
        · rw [hcast2, hzero] at hy'
          exact ih p m 0 (b + 1) y hy'
      · rw [trendGo, if_neg h1, if_neg h2] at hy
        rcases List.mem_cons.mp hy with rfl | hy'
        · exact ⟨a, b, rfl⟩
        · exact ih p m a b y hy'

theorem trend_count_nat (plus minus : List ℚ) :
    ∀ y ∈ calculate_trend_count plus minus, ∃ n m : ℕ, y = ((n : ℚ), (m : ℚ)) := by
  intro y hy
  cases plus with
  | nil => simp [calculate_trend_count] at hy
  | cons p ps =>
    cases minus with
    | nil => simp [calculate_trend_count] at hy
    | cons m ms =>
      simp only [calculate_trend_count] at hy
      rcases List.mem_cons.mp hy with rfl | hy'
      · exact ⟨0, 0, by norm_num⟩
      · have h0 : (0 : ℚ) = ((0 : ℕ) : ℚ) := by norm_num
        rw [h0] at hy'
        exact trendGo_nat _ p m 0 0 y hy'

/-- C10: the impulse counts are natural-number valued (hence
non-negative), the first pair is `(0, 0)`, and from one bar to the next
each count either resets to 0, holds, or increases by exactly 1. -/
theorem trend_count_step_invariant (plus minus : List ℚ) :
    (∀ y ∈ calculate_trend_count plus minus, ∃ n m : ℕ, y = ((n : ℚ), (m : ℚ))) ∧
    (∀ y ∈ calculate_trend_count plus minus, 0 ≤ y.1 ∧ 0 ≤ y.2) ∧
    (plus ≠ [] → minus ≠ [] →
      (calculate_trend_count plus minus).head? = some (0, 0)) ∧
    List.Chain' countStep (calculate_trend_count plus minus) := by
  refine ⟨trend_count_nat plus minus, ?_, ?_, ?_⟩
  · intro y hy
    obtain ⟨n, m, rfl⟩ := trend_count_nat plus minus y hy
    exact ⟨Nat.cast_nonneg n, Nat.cast_nonneg m⟩
  · intro hp hm
    cases plus with
    | nil => exact absurd rfl hp
    | cons p ps =>
      cases minus with
      | nil => exact absurd rfl hm
      | cons m ms => rfl
  · cases plus with
    | nil => simp [calculate_trend_count]
    | cons p ps =>
      cases minus with
      | nil => simp [calculate_trend_count]
      | cons m ms => exact trendGo_chain _ p m 0 0

/-- C10 witness: on `plus = [0, 1]`, `minus = [0, 0]` the hypotheses of the
membership and non-emptiness clauses hold at the concrete pair `(1, 0)`. -/
theorem trend_count_step_invariant_witness :
    ((1 : ℚ), (0 : ℚ)) ∈ calculate_trend_count [0, 1] [0, 0] ∧
      (∃ n m : ℕ, ((1 : ℚ), (0 : ℚ)) = ((n : ℚ), (m : ℚ))) ∧
      ([(0 : ℚ), 1] ≠ ([] : List ℚ) ∧
        (calculate_trend_count [0, 1] [0, 0]).head? = some (0, 0)) :=
  ⟨by decide,
   (trend_count_step_invariant [0, 1] [0, 0]).1 _ (by decide),
   by decide,
   (trend_count_step_invariant [0, 1] [0, 0]).2.2.1 (by decide) (by decide)⟩

/-! ### Claim theorems: smoothing and insufficient data -/

/-- C6: `rma` fails with the invalid-parameter error for every
non-positive length; for every positive length it succeeds and the output
satisfies Wilder's recurrence `out[0] = in[0]`,
`out[i] = out[i-1] + (in[i] - out[i-1]) / length`. -/
theorem rma_wilder_spec (series : List ℚ) (length : ℤ) :
    (length ≤ 0 → rma series length = .error .invalidParameter) ∧
    (1 ≤ length → ∃ out, rma series length = .ok out ∧
      out.length = series.length ∧
      out.headD 0 = series.headD 0 ∧
      ∀ i, i + 1 < series.length →
        out.getD (i + 1) 0 =
          out.getD i 0 + (series.getD (i + 1) 0 - out.getD i 0) / (length : ℚ)) := by
  constructor
  · intro h
    simp [rma, h]
  · intro h
    have hneg : ¬ length ≤ 0 := by omega
    refine ⟨rmaCore (length : ℚ) series, by simp [rma, hneg],
      rmaCore_length _ _, rmaCore_headD _ _, ?_⟩
    intro i hi
    exact rmaCore_getD_succ (length : ℚ) series i hi

/-- C6 witness: at `series = [1, 2]`, length `-1` fails and length `2`
succeeds with `out = [1, 3/2]` satisfying the recurrence. -/
theorem rma_wilder_spec_witness :
    ((-1 : ℤ) ≤ 0 ∧ rma [1, 2] (-1) = .error .invalidParameter) ∧
      ((1 : ℤ) ≤ 2 ∧ ∃ out, rma [1, 2] 2 = .ok out ∧
        out.length = ([1, 2] : List ℚ).length ∧
        out.headD 0 = ([1, 2] : List ℚ).headD 0 ∧
        ∀ i, i + 1 < ([1, 2] : List ℚ).length →
          out.getD (i + 1) 0 =
            out.getD i 0 + (([1, 2] : List ℚ).getD (i + 1) 0 - out.getD i 0) / ((2 : ℤ) : ℚ)) :=
  ⟨⟨by decide, (rma_wilder_spec [1, 2] (-1)).1 (by decide)⟩,
   ⟨by decide, (rma_wilder_spec [1, 2] 2).2 (by decide)⟩⟩

/-- C4: with fewer than 50 bars, `check_alpha_validity` returns (never
raises) the defined insufficient-data result: not valid, zero alpha, zero
strategy return, zero buy-hold return, zero trades. -/
theorem check_alpha_insufficient (bars : List Bar) (len : ℤ)
    (h : bars.length < 50) :
    check_alpha_validity bars len = .ok insufficientData ∧
    insufficientData.is_valid = false ∧
    insufficientData.alpha = 0 ∧
    insufficientData.algo_ret = 0 ∧
    insufficientData.buy_hold = 0 ∧
    insufficientData.total_trades = 0 := by
  refine ⟨?_, rfl, rfl, rfl, rfl, rfl⟩
  simp [check_alpha_validity, h]

/-- C4 witness: the empty series with the (invalid) length 0 still returns
the insufficient-data value rather than an error. -/
theorem check_alpha_insufficient_witness :
    ([] : List Bar).length < 50 ∧
      check_alpha_validity [] 0 = .ok insufficientData :=
  ⟨by decide, (check_alpha_insufficient [] 0 (by decide)).1⟩

/-! ### Helper lemmas for the trade simulation -/

/-- Ghost invariant: entries taken = completed trades, plus one if a
position is currently open. -/
def entriesInv (s : SimState) : Prop :=
  s.entries = s.trades + (if s.in_position then 1 else 0)

theorem simStep_inv (s : SimState) (x : ℚ × Bool × Bool)
    (h : entriesInv s) : entriesInv (simStep s x) := by
  unfold entriesInv simStep at *
  by_cases h1 : (¬ s.in_position ∧ x.2.1 = true)
  · have hfalse : s.in_position = false := by
      rcases h1 with ⟨h1', _⟩
      simpa using h1'
    simp only [if_pos h1]
    simp [hfalse] at h ⊢
    omega
  · by_cases h2 : (s.in_position = true ∧ x.2.2 = true)
    · have htrue : s.in_position = true := h2.1
      simp only [if_neg h1, if_pos h2]
      simp [htrue] at h ⊢
      omega
    · simp only [if_neg h1, if_neg h2]
      exact h

theorem foldl_sim_inv (xs : List (ℚ × Bool × Bool)) :
    ∀ s : SimState, entriesInv s → entriesInv (xs.foldl simStep s) := by
  induction xs with
  | nil => intro s h; exact h
  | cons x xs ih => intro s h; exact ih (simStep s x) (simStep_inv s x h)

theorem closeOut_trades_eq_entries (c : ℚ) (s : SimState)
    (h : entriesInv s) : (closeOut c s).trades = (closeOut c s).entries := by
  unfold entriesInv at h
  unfold closeOut
  by_cases hp : s.in_position = true
  · simp [hp] at h ⊢; omega
  · have hfalse : s.in_position = false := by simpa using hp
    simp [hfalse] at h ⊢; omega

theorem runSim_inv (closes pos neg : List ℚ) :
    entriesInv (runSim closes pos neg) := by
  unfold runSim
  exact foldl_sim_inv _ simInit (by simp [entriesInv, simInit])

/-- `calculate_di` succeeds for every positive length, with the explicit
smoothed-series value. -/
theorem calculate_di_ok (bars : List Bar) (len : ℤ) (h : 1 ≤ len) :
    calculate_di bars len =
      .ok (List.zipWith diDiv (rmaCore (len : ℚ) ((dmList bars).map Prod.fst))
             (rmaCore (len : ℚ) (trList bars)),
           List.zipWith diDiv (rmaCore (len : ℚ) ((dmList bars).map Prod.snd))
             (rmaCore (len : ℚ) (trList bars))) := by
  have hneg : ¬ len ≤ 0 := by omega
  simp [calculate_di, rma, hneg]

/-! ### Claim theorem: the simulation never ends in an open position -/

/-- C3: for any series of at least 50 bars (and any positive DI length),
`check_alpha_validity` succeeds, and the trade simulation it runs —
including the forced close of a still-open position at the last close —
records exactly as many completed trades as entries were taken; the
reported `total_trades` is that common value. -/
theorem simulate_trades_no_open_position (bars : List Bar) (len : ℤ)
    (h50 : 50 ≤ bars.length) (hlen : 1 ≤ len) :
    ∃ plus minus r,
      calculate_di bars len = .ok (plus, minus) ∧
      check_alpha_validity bars len = .ok r ∧
      (closeOut ((bars.map Bar.close).getLast?.getD 0)
        (runSim (bars.map Bar.close)
          ((calculate_trend_count plus minus).map Prod.fst)
          ((calculate_trend_count plus minus).map Prod.snd))).trades =
      (closeOut ((bars.map Bar.close).getLast?.getD 0)
        (runSim (bars.map Bar.close)
          ((calculate_trend_count plus minus).map Prod.fst)
          ((calculate_trend_count plus minus).map Prod.snd))).entries ∧
      r.total_trades =
      (closeOut ((bars.map Bar.close).getLast?.getD 0)
        (runSim (bars.map Bar.close)
          ((calculate_trend_count plus minus).map Prod.fst)
          ((calculate_trend_count plus minus).map Prod.snd))).trades := by
  have hn50 : ¬ bars.length < 50 := by omega
  have hdi := calculate_di_ok bars len hlen
  refine ⟨_, _, ?r, hdi, ?hchk, ?heq, ?hr⟩
  case hchk =>
    rw [check_alpha_validity, if_neg hn50, hdi]
    exact rfl
  case heq => exact closeOut_trades_eq_entries _ _ (runSim_inv _ _ _)
  case hr => rfl

/-- C3 witness: a concrete 50-bar constant series at length 9. -/
theorem simulate_trades_no_open_position_witness :
    50 ≤ (List.replicate 50 (Bar.mk 100 100 100)).length ∧ (1 : ℤ) ≤ 9 ∧
      (∃ plus minus r,
        calculate_di (List.replicate 50 (Bar.mk 100 100 100)) 9 = .ok (plus, minus) ∧
        check_alpha_validity (List.replicate 50 (Bar.mk 100 100 100)) 9 = .ok r ∧
        (closeOut (((List.replicate 50 (Bar.mk 100 100 100)).map Bar.close).getLast?.getD 0)
          (runSim ((List.replicate 50 (Bar.mk 100 100 100)).map Bar.close)
            ((calculate_trend_count plus minus).map Prod.fst)
            ((calculate_trend_count plus minus).map Prod.snd))).trades =
        (closeOut (((List.replicate 50 (Bar.mk 100 100 100)).map Bar.close).getLast?.getD 0)
          (runSim ((List.replicate 50 (Bar.mk 100 100 100)).map Bar.close)
            ((calculate_trend_count plus minus).map Prod.fst)
            ((calculate_trend_count plus minus).map Prod.snd))).entries ∧
        r.total_trades =
        (closeOut (((List.replicate 50 (Bar.mk 100 100 100)).map Bar.close).getLast?.getD 0)
          (runSim ((List.replicate 50 (Bar.mk 100 100 100)).map Bar.close)
            ((calculate_trend_count plus minus).map Prod.fst)
            ((calculate_trend_count plus minus).map Prod.snd))).trades) :=
  ⟨by decide, by decide,
   simulate_trades_no_open_position (List.replicate 50 (Bar.mk 100 100 100)) 9
     (by decide) (by decide)⟩

/-! ### Helper lemmas for DI non-negativity -/

theorem rmaGo_nonneg (l : ℚ) (hl : 1 ≤ l) :
    ∀ (xs : List ℚ) (prev : ℚ), 0 ≤ prev → (∀ x ∈ xs, 0 ≤ x) →
      ∀ y ∈ rmaGo l prev xs, 0 ≤ y := by
  intro xs
  induction xs with
  | nil => intro _ _ _ y hy; simp [rmaGo] at hy
  | cons x xs ih =>
    intro prev hprev hmem y hy
    have hl0 : (0 : ℚ) < l := lt_of_lt_of_le one_pos hl
    have hx : 0 ≤ x := hmem x (List.mem_cons_self x xs)
    have hstep : 0 ≤ prev + (x - prev) / l := by
      have key : prev + (x - prev) / l = (prev * (l - 1) + x) / l := by
        field_simp
        ring
      rw [key]
      apply div_nonneg _ (le_of_lt hl0)
      have : 0 ≤ prev * (l - 1) := mul_nonneg hprev (by linarith)
      linarith
    rw [rmaGo] at hy
    rcases List.mem_cons.mp hy with rfl | hy'
    · exact hstep
    · exact ih _ hstep (fun z hz => hmem z (List.mem_cons_of_mem x hz)) y hy'

theorem rmaCore_nonneg (l : ℚ) (hl : 1 ≤ l) (xs : List ℚ)
    (hmem : ∀ x ∈ xs, 0 ≤ x) : ∀ y ∈ rmaCore l xs, 0 ≤ y := by
  cases xs with
  | nil => intro y hy; simp [rmaCore] at hy
  | cons x xs =>
    intro y hy
    rw [rmaCore] at hy
    rcases List.mem_cons.mp hy with rfl | hy'
    · exact hmem y (List.mem_cons_self y xs)
    · exact rmaGo_nonneg l hl xs x (hmem x (List.mem_cons_self x xs))
        (fun z hz => hmem z (List.mem_cons_of_mem x hz)) y hy'

theorem trGo_nonneg : ∀ (bs : List Bar) (pc : ℚ), ∀ y ∈ trGo pc bs, 0 ≤ y := by
  intro bs
  induction bs with
  | nil => intro _ y hy; simp [trGo] at hy
  | cons b bs ih =>
    intro pc y hy
    rw [trGo] at hy
    rcases List.mem_cons.mp hy with rfl | hy'
    · exact le_trans (le_trans (abs_nonneg (b.high - pc)) (le_max_left _ _))
        (le_max_right _ _)
    · exact ih b.close y hy'

theorem trList_nonneg (bars : List Bar) (hvalid : ∀ b ∈ bars, b.low ≤ b.high) :
    ∀ y ∈ trList bars, 0 ≤ y := by
  cases bars with
  | nil => intro y hy; simp [trList] at hy
  | cons b bs =>
    intro y hy
    rw [trList] at hy
    rcases List.mem_cons.mp hy with rfl | hy'
    · have := hvalid b (List.mem_cons_self b bs)
      linarith
    · exact trGo_nonneg bs b.close y hy'

theorem dmGo_nonneg : ∀ (bs : List Bar) (p : Bar),
    ∀ y ∈ dmGo p bs, 0 ≤ y.1 ∧ 0 ≤ y.2 := by
  intro bs
  induction bs with
  | nil => intro _ y hy; simp [dmGo] at hy
  | cons b bs ih =>
    intro p y hy
    rw [dmGo] at hy
    rcases List.mem_cons.mp hy with rfl | hy'
    · constructor
      · dsimp only
        split
        · next h => exact le_of_lt h.2
        · exact le_refl 0
      · dsimp only
        split
        · next h => exact le_of_lt h.2
        · exact le_refl 0
    · exact ih b y hy'

theorem dmList_nonneg (bars : List Bar) :
    ∀ y ∈ dmList bars, 0 ≤ y.1 ∧ 0 ≤ y.2 := by
  cases bars with
  | nil => intro y hy; simp [dmList] at hy
  | cons b bs =>
    intro y hy
    rw [dmList] at hy
    rcases List.mem_cons.mp hy with rfl | hy'
    · exact ⟨le_refl 0, le_refl 0⟩
    · exact dmGo_nonneg bs b y hy'

theorem exists_of_mem_zipWith {α β γ : Type} (f : α → β → γ) :
    ∀ (as : List α) (bs : List β), ∀ y ∈ List.zipWith f as bs,
      ∃ a b, a ∈ as ∧ b ∈ bs ∧ y = f a b := by
  intro as
  induction as with
  | nil => intro _ y hy; simp at hy
  | cons a as ih =>
    intro bs y hy
    cases bs with
    | nil => simp at hy
    | cons b bs =>
      rw [List.zipWith_cons_cons] at hy
      rcases List.mem_cons.mp hy with rfl | hy'
      · exact ⟨a, b, List.mem_cons_self a as, List.mem_cons_self b bs, rfl⟩
      · obtain ⟨a', b', ha, hb, rfl⟩ := ih bs y hy'
        exact ⟨a', b', List.mem_cons_of_mem a ha, List.mem_cons_of_mem b hb, rfl⟩

theorem diDiv_nonneg (num den : ℚ) (hn : 0 ≤ num) (hd : 0 ≤ den) :
    0 ≤ diDiv num den := by
  unfold diDiv
  split
  · exact le_refl 0
  · next h =>
    have : 0 < den := lt_of_le_of_ne hd (Ne.symm h)
    positivity

theorem zipWith_getD {α β γ : Type} (f : α → β → γ) :
    ∀ (as : List α) (bs : List β) (i : ℕ) (da : α) (db : β) (dc : γ),
      i < as.length → i < bs.length →
      (List.zipWith f as bs).getD i dc = f (as.getD i da) (bs.getD i db) := by
  intro as
  induction as with
  | nil => intro bs i _ _ _ ha _; simp at ha
  | cons a as ih =>
    intro bs i da db dc ha hb
    cases bs with
    | nil => simp at hb
    | cons b bs =>
      cases i with
      | zero => rfl
      | succ j =>
        simp only [List.zipWith_cons_cons, List.getD_cons_succ]
        exact ih bs j da db dc (by simpa using ha) (by simpa using hb)

theorem trGo_length : ∀ (bs : List Bar) (pc : ℚ), (trGo pc bs).length = bs.length := by
  intro bs
  induction bs with
  | nil => intro _; rfl
  | cons b bs ih => intro pc; simp [trGo, ih]

theorem trList_length (bars : List Bar) : (trList bars).length = bars.length := by
  cases bars with
  | nil => rfl
  | cons b bs => simp [trList, trGo_length]

theorem dmGo_length : ∀ (bs : List Bar) (p : Bar), (dmGo p bs).length = bs.length := by
  intro bs
  induction bs with
  | nil => intro _; rfl
  | cons b bs ih => intro p; simp [dmGo, ih]

theorem dmList_length (bars : List Bar) : (dmList bars).length = bars.length := by
  cases bars with
  | nil => rfl
  | cons b bs => simp [dmList, dmGo_length]

/-! ### Claim theorem: DI series are non-negative and total -/

/-- C5: for a valid series (each bar's low at most its high) and a
positive smoothing length, `calculate_di` succeeds, both DI series are
element-wise non-negative, and wherever the smoothed True Range is 0 both
DI values are 0 (defined edge case, not a division error). -/
theorem calculate_di_nonneg_spec (bars : List Bar) (len : ℤ)
    (hlen : 1 ≤ len) (hvalid : ∀ b ∈ bars, b.low ≤ b.high) :
    ∃ plus minus, calculate_di bars len = .ok (plus, minus) ∧
      (∀ x ∈ plus, 0 ≤ x) ∧ (∀ x ∈ minus, 0 ≤ x) ∧
      (∀ i, (rmaCore (len : ℚ) (trList bars)).getD i 1 = 0 →
        plus.getD i 1 = 0 ∧ minus.getD i 1 = 0) := by
  have hlq : (1 : ℚ) ≤ (len : ℚ) := by exact_mod_cast hlen
  have htr : ∀ y ∈ rmaCore (len : ℚ) (trList bars), 0 ≤ y :=
    rmaCore_nonneg _ hlq _ (trList_nonneg bars hvalid)
  have hplus : ∀ y ∈ rmaCore (len : ℚ) ((dmList bars).map Prod.fst), 0 ≤ y := by
    apply rmaCore_nonneg _ hlq
    intro x hx
    obtain ⟨pair, hpair, rfl⟩ := List.mem_map.mp hx
    exact (dmList_nonneg bars pair hpair).1
  have hminus : ∀ y ∈ rmaCore (len : ℚ) ((dmList bars).map Prod.snd), 0 ≤ y := by
    apply rmaCore_nonneg _ hlq
    intro x hx
    obtain ⟨pair, hpair, rfl⟩ := List.mem_map.mp hx
    exact (dmList_nonneg bars pair hpair).2
  refine ⟨_, _, calculate_di_ok bars len hlen, ?_, ?_, ?_⟩
  · intro x hx
    obtain ⟨a, b, ha, hb, rfl⟩ := exists_of_mem_zipWith diDiv _ _ x hx
    exact diDiv_nonneg a b (hplus a ha) (htr b hb)
  · intro x hx
    obtain ⟨a, b, ha, hb, rfl⟩ := exists_of_mem_zipWith diDiv _ _ x hx
    exact diDiv_nonneg a b (hminus a ha) (htr b hb)
  · intro i h0
    have htrlen : (rmaCore (len : ℚ) (trList bars)).length = bars.length := by
      rw [rmaCore_length, trList_length]
    have hplen : (rmaCore (len : ℚ) ((dmList bars).map Prod.fst)).length = bars.length := by
      rw [rmaCore_length, List.length_map, dmList_length]
    have hmlen : (rmaCore (len : ℚ) ((dmList bars).map Prod.snd)).length = bars.length := by
      rw [rmaCore_length, List.length_map, dmList_length]
    by_cases hi : i < bars.length
    · have h0' : (rmaCore (len : ℚ) (trList bars)).getD i 1 = 0 := h0
      constructor
      · rw [zipWith_getD diDiv _ _ i 1 1 1 (by omega) (by omega), h0']
        simp [diDiv]
      · rw [zipWith_getD diDiv _ _ i 1 1 1 (by omega) (by omega), h0']
        simp [diDiv]
    · rw [List.getD_eq_default _ _ (by omega)] at h0
      norm_num at h0

/-- C5 witness: a single valid bar at length 1. -/
theorem calculate_di_nonneg_spec_witness :
    (1 : ℤ) ≤ 1 ∧ (∀ b ∈ [Bar.mk 2 1 1], b.low ≤ b.high) ∧
      (∃ plus minus, calculate_di [Bar.mk 2 1 1] 1 = .ok (plus, minus) ∧
        (∀ x ∈ plus, 0 ≤ x) ∧ (∀ x ∈ minus, 0 ≤ x) ∧
        (∀ i, (rmaCore ((1 : ℤ) : ℚ) (trList [Bar.mk 2 1 1])).getD i 1 = 0 →
          plus.getD i 1 = 0 ∧ minus.getD i 1 = 0)) :=
  ⟨by decide, by decide,
   calculate_di_nonneg_spec [Bar.mk 2 1 1] 1 (by decide) (by decide)⟩

/-! ### Helper lemmas for the parameter sweep -/

theorem check_alpha_ok (bars : List Bar) (len : ℤ) (h : 1 ≤ len) :
    ∃ s, check_alpha_validity bars len = .ok s := by
  by_cases h50 : bars.length < 50
  · exact ⟨insufficientData, by simp [check_alpha_validity, h50]⟩
  · refine ⟨?s, ?h⟩
    case h =>
      rw [check_alpha_validity, if_neg h50, calculate_di_ok bars len h]
      exact rfl

/-- Soundness of an incumbent best-state for a fixed series: its stored
result is the evaluation at its stored length, and its stored alpha is
that result's alpha. -/
def evalOK (bars : List Bar) (b : BestState) : Prop :=
  check_alpha_validity bars b.best_length = .ok b.best_result ∧
  b.best_result.alpha = b.best_alpha

theorem sweep_invariant (bars : List Bar) :
    ∀ (ls : List ℤ) (b : BestState),
      evalOK bars b →
      (∀ l ∈ ls, b.best_length < l) →
      ls.Pairwise (· < ·) →
      ∃ b', ls.foldl (optStep bars) (some b) = some b' ∧
        evalOK bars b' ∧
        b.best_alpha ≤ b'.best_alpha ∧
        (b' = b ∨ b.best_alpha < b'.best_alpha) ∧
        (b'.best_length = b.best_length ∨ b'.best_length ∈ ls) ∧
        (∀ l ∈ ls, ∀ s, check_alpha_validity bars l = .ok s →
          s.alpha ≤ b'.best_alpha) ∧
        (∀ l ∈ ls, l < b'.best_length → ∀ s,
          check_alpha_validity bars l = .ok s → s.alpha < b'.best_alpha) := by
  intro ls
  induction ls with
  | nil =>
    intro b hok _ _
    exact ⟨b, rfl, hok, le_refl _, Or.inl rfl, Or.inl rfl, by simp, by simp⟩
  | cons l ls ih =>
    intro b hok hlt hsorted
    have hbl : b.best_length < l := hlt l (List.mem_cons_self l ls)
    have hsorted' : ls.Pairwise (· < ·) := (List.pairwise_cons.mp hsorted).2
    have hlgt : ∀ l' ∈ ls, l < l' := (List.pairwise_cons.mp hsorted).1
    rw [List.foldl_cons]
    cases hchk : check_alpha_validity bars l with
    | error e =>
      have hstep : optStep bars (some b) l = some b := by
        simp [optStep, hchk]
      rw [hstep]
      obtain ⟨b', hfold, hok', hle, hor, hlen, hall, hstrict⟩ :=
        ih b hok (fun l' hl' => lt_trans hbl (hlgt l' hl')) hsorted'
      refine ⟨b', hfold, hok', hle, hor, ?_, ?_, ?_⟩
      · rcases hlen with h | h
        · exact Or.inl h
        · exact Or.inr (List.mem_cons_of_mem l h)
      · intro l' hl' s hs
        rcases List.mem_cons.mp hl' with rfl | hl''
        · rw [hchk] at hs; cases hs
        · exact hall l' hl'' s hs
      · intro l' hl' hlb s hs
        rcases List.mem_cons.mp hl' with rfl | hl''
        · rw [hchk] at hs; cases hs
        · exact hstrict l' hl'' hlb s hs
    | ok s =>
      by_cases hgt : s.alpha > b.best_alpha
      · have hstep : optStep bars (some b) l = some ⟨s.alpha, l, s⟩ := by
          simp [optStep, hchk, hgt]
        rw [hstep]
        obtain ⟨b', hfold, hok', hle, hor, hlen, hall, hstrict⟩ :=
          ih ⟨s.alpha, l, s⟩ ⟨hchk, rfl⟩ (fun l' hl' => hlgt l' hl') hsorted'
        refine ⟨b', hfold, hok', le_trans (le_of_lt hgt) hle,
          Or.inr (lt_of_lt_of_le hgt hle), ?_, ?_, ?_⟩
        · rcases hlen with h | h
          · exact Or.inr (h ▸ List.mem_cons_self l ls)
          · exact Or.inr (List.mem_cons_of_mem l h)
        · intro l' hl' s' hs'
          rcases List.mem_cons.mp hl' with rfl | hl''
          · rw [hchk] at hs'
            injection hs' with h
            subst h
            exact hle
          · exact hall l' hl'' s' hs'
        · intro l' hl' hlb s' hs'
          rcases List.mem_cons.mp hl' with rfl | hl''
          · rcases hor with heq | hlt2
            · rw [heq] at hlb
              simp at hlb
            · rw [hchk] at hs'
              injection hs' with h
              subst h
              exact hlt2
          · exact hstrict l' hl'' hlb s' hs'
      · have hstep : optStep bars (some b) l = some b := by
          simp [optStep, hchk, hgt]
        rw [hstep]
        obtain ⟨b', hfold, hok', hle, hor, hlen, hall, hstrict⟩ :=
          ih b hok (fun l' hl' => lt_trans hbl (hlgt l' hl')) hsorted'
        have hsle : s.alpha ≤ b.best_alpha := le_of_not_lt hgt
        refine ⟨b', hfold, hok', hle, hor, ?_, ?_, ?_⟩
        · rcases hlen with h | h
          · exact Or.inl h
          · exact Or.inr (List.mem_cons_of_mem l h)
        · intro l' hl' s' hs'
          rcases List.mem_cons.mp hl' with rfl | hl''
          · rw [hchk] at hs'
            injection hs' with h
            subst h
            exact le_trans hsle hle
          · exact hall l' hl'' s' hs'
        · intro l' hl' hlb s' hs'
          rcases List.mem_cons.mp hl' with rfl | hl''
          · rcases hor with heq | hlt2
            · rw [heq] at hlb
              omega
            · rw [hchk] at hs'
              injection hs' with h
              subst h
              exact lt_of_le_of_lt hsle hlt2
          · exact hstrict l' hl'' hlb s' hs'

/-- The tail of the sweep range: the integers 2 to 40. -/
def restLens : List ℤ :=
  (List.range 39).map (fun k => (k : ℤ) + 2)

theorem diLengths_eq : diLengths = 1 :: restLens := by decide

theorem restLens_gt_one : ∀ l ∈ restLens, (1 : ℤ) < l := by decide

theorem restLens_bounds : ∀ l ∈ restLens, 2 ≤ l ∧ l ≤ 40 := by decide

theorem restLens_pairwise : restLens.Pairwise (· < ·) := by decide

theorem restLens_mem (l : ℤ) (h2 : 2 ≤ l) (h40 : l ≤ 40) : l ∈ restLens := by
  interval_cases l <;> decide

/-! ### Claim theorem: the sweep returns the maximal alpha -/

/-- C1: on any series of at least 50 bars the ascending sweep over
lengths 1..40 returns a best state whose alpha is at least the alpha of
every evaluated length, and every length strictly below the winner has
strictly smaller alpha — so on exact ties the lowest length wins. -/
theorem optimize_selects_max_alpha (bars : List Bar) (h50 : 50 ≤ bars.length) :
    ∃ b, optimizeSweep bars = some b ∧
      check_alpha_validity bars b.best_length = .ok b.best_result ∧
      b.best_result.alpha = b.best_alpha ∧
      1 ≤ b.best_length ∧ b.best_length ≤ 40 ∧
      (∀ l, 1 ≤ l → l ≤ 40 → ∀ s, check_alpha_validity bars l = .ok s →
        s.alpha ≤ b.best_alpha) ∧
      (∀ l, 1 ≤ l → l < b.best_length → ∀ s,
        check_alpha_validity bars l = .ok s → s.alpha < b.best_alpha) := by
  obtain ⟨s1, hs1⟩ := check_alpha_ok bars 1 (by norm_num)
  have hstep0 : optStep bars none 1 = some ⟨s1.alpha, 1, s1⟩ := by
    simp [optStep, hs1]
  obtain ⟨b', hfold, hok', hle, hor, hlen, hall, hstrict⟩ :=
    sweep_invariant bars restLens ⟨s1.alpha, 1, s1⟩ ⟨hs1, rfl⟩
      restLens_gt_one restLens_pairwise
  have hb1 : 1 ≤ b'.best_length := by
    rcases hlen with h | h
    · rw [h]
    · have := restLens_bounds _ h
      omega
  have hb40 : b'.best_length ≤ 40 := by
    rcases hlen with h | h
    · rw [h]; norm_num
    · exact (restLens_bounds _ h).2
  refine ⟨b', ?_, hok'.1, hok'.2, hb1, hb40, ?_, ?_⟩
  · rw [optimizeSweep, diLengths_eq, List.foldl_cons, hstep0]
    exact hfold
  · intro l h1 h40 s hs
    by_cases hl1 : l = 1
    · subst hl1
      rw [hs1] at hs
      injection hs with h
      subst h
      exact hle
    · exact hall l (restLens_mem l (by omega) h40) s hs
  · intro l h1 hlb s hs
    by_cases hl1 : l = 1
    · subst hl1
      rcases hor with heq | hlt2
      · rw [heq] at hlb
        simp at hlb
      · rw [hs1] at hs
        injection hs with h
        subst h
        exact hlt2
    · have hl40 : l ≤ 40 := by omega
      exact hstrict l (restLens_mem l (by omega) hl40) hlb s hs

/-- C1 witness: a concrete 50-bar constant series. -/
theorem optimize_selects_max_alpha_witness :
    50 ≤ (List.replicate 50 (Bar.mk 100 100 100)).length ∧
      (∃ b, optimizeSweep (List.replicate 50 (Bar.mk 100 100 100)) = some b ∧
        check_alpha_validity (List.replicate 50 (Bar.mk 100 100 100)) b.best_length =
          .ok b.best_result ∧
        b.best_result.alpha = b.best_alpha ∧
        1 ≤ b.best_length ∧ b.best_length ≤ 40 ∧
        (∀ l, 1 ≤ l → l ≤ 40 → ∀ s,
          check_alpha_validity (List.replicate 50 (Bar.mk 100 100 100)) l = .ok s →
            s.alpha ≤ b.best_alpha) ∧
        (∀ l, 1 ≤ l → l < b.best_length → ∀ s,
          check_alpha_validity (List.replicate 50 (Bar.mk 100 100 100)) l = .ok s →
            s.alpha < b.best_alpha)) :=
  ⟨by decide,
   optimize_selects_max_alpha (List.replicate 50 (Bar.mk 100 100 100)) (by decide)⟩

/-! ### Helper lemmas for the stability profile -/

theorem stabilityRow_ok (bars : List Bar) (l : ℤ) (h : 1 ≤ l) :
    ∃ s, check_alpha_validity bars l = .ok s ∧
      stabilityRow bars l =
        some { length := l, alpha := s.alpha, is_valid := s.is_valid,
               algo_ret := s.algo_ret, buy_hold := s.buy_hold,
               trades := s.total_trades } := by
  obtain ⟨s, hs⟩ := check_alpha_ok bars l h
  exact ⟨s, hs, by simp [stabilityRow, hs]⟩

theorem stabilityRows_shape (bars : List Bar) :
    ∀ ls : List ℤ, (∀ l ∈ ls, 1 ≤ l) →
      (ls.filterMap (stabilityRow bars)).length = ls.length ∧
      (∀ k (d : StabilityEntry), k < ls.length →
        ((ls.filterMap (stabilityRow bars)).getD k d).length = ls.getD k 0) ∧
      (∀ e ∈ ls.filterMap (stabilityRow bars), ∃ l ∈ ls, e.length = l) := by
  intro ls
  induction ls with
  | nil => intro _; refine ⟨rfl, ?_, ?_⟩ <;> simp
  | cons l ls ih =>
    intro hpos
    obtain ⟨s, _, hrow⟩ := stabilityRow_ok bars l (hpos l (List.mem_cons_self l ls))
    obtain ⟨ihlen, ihget, ihmem⟩ := ih (fun l' hl' => hpos l' (List.mem_cons_of_mem l hl'))
    rw [List.filterMap_cons, hrow]
    refine ⟨by simp [ihlen], ?_, ?_⟩
    · intro k d hk
      cases k with
      | zero => rfl
      | succ j =>
        simp only [List.getD_cons_succ]
        exact ihget j d (by simpa using hk)
    · intro e he
      rcases List.mem_cons.mp he with rfl | he'
      · exact ⟨l, List.mem_cons_self l ls, rfl⟩
      · obtain ⟨l', hl', hlen⟩ := ihmem e he'
        exact ⟨l', List.mem_cons_of_mem l hl', hlen⟩

theorem stabilityRows_sorted (bars : List Bar) :
    ∀ ls : List ℤ, (∀ l ∈ ls, 1 ≤ l) → ls.Pairwise (· < ·) →
      (ls.filterMap (stabilityRow bars)).Pairwise
        (fun a b => stabilityLe a b = true) := by
  intro ls
  induction ls with
  | nil => intro _ _; simp
  | cons l ls ih =>
    intro hpos hsorted
    obtain ⟨s, _, hrow⟩ := stabilityRow_ok bars l (hpos l (List.mem_cons_self l ls))
    rw [List.filterMap_cons, hrow]
    rw [List.pairwise_cons]
    constructor
    · intro e he
      obtain ⟨l', hl', hlen⟩ :=
        (stabilityRows_shape bars ls
          (fun l'' hl'' => hpos l'' (List.mem_cons_of_mem l hl''))).2.2 e he
      have hless : l < l' := (List.pairwise_cons.mp hsorted).1 l' hl'
      simp only [stabilityLe, hlen]
      exact decide_eq_true (le_of_lt hless)
    · exact ih (fun l'' hl'' => hpos l'' (List.mem_cons_of_mem l hl''))
        (List.pairwise_cons.mp hsorted).2

theorem diLengths_pos : ∀ l ∈ diLengths, (1 : ℤ) ≤ l := by decide

theorem diLengths_pairwise : diLengths.Pairwise (· < ·) := by decide

theorem diLengths_length : diLengths.length = 40 := by decide

theorem diLengths_getD : ∀ k, k < 40 → diLengths.getD k 0 = (k : ℤ) + 1 := by decide

/-- Default row used only as the `getD` out-of-range fallback. -/
def dummyEntry : StabilityEntry :=
  { length := 0, alpha := 0, is_valid := false, algo_ret := 0, buy_hold := 0, trades := 0 }

/-! ### Claim theorem: stability profile shape -/

/-- C7: on a series of at least 50 bars (where no per-parameter
evaluation fails), the stability profile has exactly 40 rows, ordered by
parameter ascending: row `k` carries parameter `k + 1`. -/
theorem inspect_stability_profile (bars : List Bar) (h50 : 50 ≤ bars.length) :
    (inspect_ticker_stability bars).length = 40 ∧
    ∀ k, k < 40 →
      ((inspect_ticker_stability bars).getD k dummyEntry).length = (k : ℤ) + 1 := by
  have hn50 : ¬ bars.length < 50 := by omega
  have hsorted := stabilityRows_sorted bars diLengths diLengths_pos diLengths_pairwise
  have hshape := stabilityRows_shape bars diLengths diLengths_pos
  have heq : inspect_ticker_stability bars = diLengths.filterMap (stabilityRow bars) := by
    rw [inspect_ticker_stability, if_neg hn50]
    exact List.mergeSort_of_sorted hsorted
  rw [heq]
  refine ⟨by rw [hshape.1, diLengths_length], ?_⟩
  intro k hk
  rw [hshape.2.1 k dummyEntry (by rw [diLengths_length]; exact hk)]
  exact diLengths_getD k hk

/-- C7 witness: a concrete 50-bar constant series. -/
theorem inspect_stability_profile_witness :
    50 ≤ (List.replicate 50 (Bar.mk 100 100 100)).length ∧
      (inspect_ticker_stability (List.replicate 50 (Bar.mk 100 100 100))).length = 40 ∧
      (∀ k, k < 40 →
        ((inspect_ticker_stability (List.replicate 50 (Bar.mk 100 100 100))).getD
          k dummyEntry).length = (k : ℤ) + 1) :=
  ⟨by decide,
   inspect_stability_profile (List.replicate 50 (Bar.mk 100 100 100)) (by decide)⟩

/-! ### Helper lemmas for the ranking sort -/

theorem keyLe_trans (x y z : ℤ × ℤ × ℚ)
    (h1 : keyLe x y = true) (h2 : keyLe y z = true) : keyLe x z = true := by
  simp only [keyLe, decide_eq_true_eq] at h1 h2 ⊢
  rcases h1 with h1 | ⟨e1, h1'⟩ <;> rcases h2 with h2 | ⟨e2, h2'⟩
  · exact Or.inl (by omega)
  · exact Or.inl (by omega)
  · exact Or.inl (by omega)
  · refine Or.inr ⟨by omega, ?_⟩
    rcases h1' with h1' | ⟨f1, h1''⟩ <;> rcases h2' with h2' | ⟨f2, h2''⟩
    · exact Or.inl (by omega)
    · exact Or.inl (by omega)
    · exact Or.inl (by omega)
    · exact Or.inr ⟨by omega, le_trans h1'' h2''⟩

theorem keyLe_total (x y : ℤ × ℤ × ℚ) :
    (keyLe x y || keyLe y x) = true := by
  simp only [Bool.or_eq_true, keyLe, decide_eq_true_eq]
  rcases lt_trichotomy x.1 y.1 with h | h | h
  · exact Or.inl (Or.inl h)
  · rcases lt_trichotomy x.2.1 y.2.1 with h' | h' | h'
    · exact Or.inl (Or.inr ⟨h, Or.inl h'⟩)
    · rcases le_total x.2.2 y.2.2 with h'' | h''
      · exact Or.inl (Or.inr ⟨h, Or.inr ⟨h', h''⟩⟩)
      · exact Or.inr (Or.inr ⟨h.symm, Or.inr ⟨h'.symm, h''⟩⟩)
    · exact Or.inr (Or.inr ⟨h.symm, Or.inl h'⟩)
  · exact Or.inr (Or.inl h)

/-- The ranking order the scan output is claimed to satisfy: the
buy-and-valid partition first, then the valid partition, then alpha
descending inside a partition. -/
def rankedBefore (a b : AnalysisResult) : Prop :=
  ((a.is_buy_signal && a.is_valid) = true ∧ (b.is_buy_signal && b.is_valid) = false) ∨
  ((a.is_buy_signal && a.is_valid) = (b.is_buy_signal && b.is_valid) ∧
    ((a.is_valid = true ∧ b.is_valid = false) ∨
     (a.is_valid = b.is_valid ∧ b.alpha ≤ a.alpha)))

theorem keyLe_implies_ranked (a b : AnalysisResult)
    (h : keyLe (sort_key a) (sort_key b) = true) : rankedBefore a b := by
  simp only [keyLe, sort_key, decide_eq_true_eq] at h
  rcases h with h | ⟨e1, h⟩
  · left
    cases hpa : (a.is_buy_signal && a.is_valid) <;>
      cases hpb : (b.is_buy_signal && b.is_valid) <;>
      rw [hpa, hpb] at h <;> simp at h ⊢
  · have hpe : (a.is_buy_signal && a.is_valid) = (b.is_buy_signal && b.is_valid) := by
      cases hpa : (a.is_buy_signal && a.is_valid) <;>
        cases hpb : (b.is_buy_signal && b.is_valid) <;>
        rw [hpa, hpb] at e1 <;> simp at e1
    refine Or.inr ⟨hpe, ?_⟩
    rcases h with h | ⟨e2, h⟩
    · left
      cases hva : a.is_valid <;> cases hvb : b.is_valid <;>
        rw [hva, hvb] at h <;> simp at h ⊢
    · have hve : a.is_valid = b.is_valid := by
        cases hva : a.is_valid <;> cases hvb : b.is_valid <;>
          rw [hva, hvb] at e2 <;> simp at e2
      exact Or.inr ⟨hve, by linarith⟩

/-! ### Claim theorem: the ranked scan output -/

/-- C9: the ranking sort of the scan output is a permutation of its
input, pairwise ordered by the three hard partition keys: buy-and-valid
first, then valid, then alpha descending within a partition. -/
theorem scan_ranking_sorted (rs : List AnalysisResult) :
    (rankResults rs).Pairwise rankedBefore ∧ (rankResults rs).Perm rs := by
  constructor
  · have hs := @List.sorted_mergeSort AnalysisResult
      (fun a b : AnalysisResult => keyLe (sort_key a) (sort_key b))
      (fun a b c h1 h2 => keyLe_trans _ _ _ h1 h2)
      (fun a b => keyLe_total _ _) rs
    exact hs.imp (fun h => keyLe_implies_ranked _ _ h)
  · exact List.mergeSort_perm rs _

/-! ### Helper lemmas for the per-symbol signal state -/

theorem trendStrength_cases (v : ℚ) :
    (trendStrength v = "Strong" ↔ 20 < v) ∧
    (trendStrength v = "Mod" ↔ (10 < v ∧ ¬ 20 < v)) ∧
    (trendStrength v = "Weak" ↔ ¬ 10 < v) := by
  unfold trendStrength
  by_cases h20 : v > 20
  · have h10 : (10 : ℚ) < v := by linarith
    simp [h20, h10]
  · by_cases h10 : v > 10
    · simp [h20, h10]
    · simp [h20, h10]

theorem decide_and_iff (p q : Prop) [Decidable p] [Decidable q] :
    (decide p && decide q) = true ↔ (p ∧ q) := by simp

/-- 48 flat bars, then a down bar and a partial recovery bar: a concrete
series on which the winning length is 1 and the final DI gap is 50/3. -/
def c8Bars : List Bar :=
  List.replicate 48 (Bar.mk 100 100 100) ++ [Bar.mk 100 90 90, Bar.mk 102 91 91]

/-- The best state the sweep reaches on `c8Bars`: every length ties at
alpha 9, so the ascending scan keeps length 1. -/
def c8Best : BestState :=
  { best_alpha := 9, best_length := 1,
    best_result := { is_valid := false, alpha := 9, algo_ret := 0,
                     buy_hold := -9, total_trades := 1, reason := none } }

/-! ### Claim C8: buy flag and trend-strength bucket -/

set_option maxRecDepth 1000000 in
/-- C8 counterexample: on `c8Bars` the analysis succeeds, the final DI
gap lies in the middle band (greater than 10, not greater than 20), yet
the reported bucket is the string `"Mod"`, not `"Moderate"` as the claim
states. -/
theorem analyze_symbol_moderate_counterexample :
    (analyze_symbol c8Bars).map
      (fun r => (decide (10 < |r.plus_di - r.minus_di| ∧
                   ¬ 20 < |r.plus_di - r.minus_di|),
                 decide (r.trend_strength = "Moderate"),
                 r.trend_strength)) =
      some (true, false, "Mod") := by
  decide

/-- C8 amended: for every successful analysis the buy flag is set iff the
winning parameter's positive count is 1 at the last bar and 0 at the bar
before, and the trend-strength bucket is `"Strong"` for a DI gap above
20, `"Mod"` (the code's label for the moderate band) above 10, and
`"Weak"` otherwise. -/
theorem analyze_symbol_signal_spec (bars : List Bar) (best : BestState)
    (h50 : 50 ≤ bars.length)
    (hopt : optimizeSweep bars = some best)
    (hlen : 1 ≤ best.best_length) :
    ∃ plus minus r,
      calculate_di bars best.best_length = .ok (plus, minus) ∧
      analyze_symbol bars = some r ∧
      (r.is_buy_signal = true ↔
        (((calculate_trend_count plus minus).map Prod.fst).getLast?.getD 0 = 1 ∧
         (if 1 < ((calculate_trend_count plus minus).map Prod.fst).length
          then ((calculate_trend_count plus minus).map Prod.fst).dropLast.getLast?.getD 0
          else 0) = 0)) ∧
      (r.trend_strength = "Strong" ↔
        20 < |plus.getLast?.getD 0 - minus.getLast?.getD 0|) ∧
      (r.trend_strength = "Mod" ↔
        (10 < |plus.getLast?.getD 0 - minus.getLast?.getD 0| ∧
         ¬ 20 < |plus.getLast?.getD 0 - minus.getLast?.getD 0|)) ∧
      (r.trend_strength = "Weak" ↔
        ¬ 10 < |plus.getLast?.getD 0 - minus.getLast?.getD 0|) := by
  have hn50 : ¬ bars.length < 50 := by omega
  have hdi := calculate_di_ok bars best.best_length hlen
  refine ⟨_, _, ?r, hdi, ?ha, ?h1, ?h2, ?h3, ?h4⟩
  case ha =>
    simp only [analyze_symbol, if_neg hn50, hopt, hdi]
    exact rfl
  case h1 => exact decide_and_iff _ _
  case h2 => exact (trendStrength_cases _).1
  case h3 => exact (trendStrength_cases _).2.1
  case h4 => exact (trendStrength_cases _).2.2

set_option maxRecDepth 1000000 in
/-- C8 amended witness: the hypotheses hold at `c8Bars` with the concrete
best state of the sweep. -/
theorem analyze_symbol_signal_spec_witness :
    50 ≤ c8Bars.length ∧ optimizeSweep c8Bars = some c8Best ∧
      (1 : ℤ) ≤ c8Best.best_length ∧
      (∃ plus minus r,
        calculate_di c8Bars c8Best.best_length = .ok (plus, minus) ∧
        analyze_symbol c8Bars = some r ∧
        (r.is_buy_signal = true ↔
          (((calculate_trend_count plus minus).map Prod.fst).getLast?.getD 0 = 1 ∧
           (if 1 < ((calculate_trend_count plus minus).map Prod.fst).length
            then ((calculate_trend_count plus minus).map Prod.fst).dropLast.getLast?.getD 0
            else 0) = 0)) ∧
        (r.trend_strength = "Strong" ↔
          20 < |plus.getLast?.getD 0 - minus.getLast?.getD 0|) ∧
        (r.trend_strength = "Mod" ↔
          (10 < |plus.getLast?.getD 0 - minus.getLast?.getD 0| ∧
           ¬ 20 < |plus.getLast?.getD 0 - minus.getLast?.getD 0|)) ∧
        (r.trend_strength = "Weak" ↔
          ¬ 10 < |plus.getLast?.getD 0 - minus.getLast?.getD 0|)) := by
  have hopt : optimizeSweep c8Bars = some c8Best := by
    decide
  exact ⟨by decide, hopt, by decide,
    analyze_symbol_signal_spec c8Bars c8Best (by decide) hopt (by decide)⟩

end Titan
